import Mathlib

/-!
Shallow embedding of the g-migrations module (src/index.js).

The module migrates versioned documents stored in a CouchDB-style store.
Versions and step ids are modelled as natural numbers; JavaScript number
falsiness (0 is falsy) is modelled explicitly wherever the source uses
the logical-or defaulting idiom.  Callback results of a migration step
can be a replacement document, null, or undefined, so they are modelled
by a three-valued type.  Fallible or possibly non-terminating code is
modelled with explicit result types and a fuel parameter.
-/

/-- A stored document: the CouchDB identifier, the reserved version
marker field (migration_version, absent when none), and an opaque
payload standing for all other fields. -/
structure Doc where
  id : Nat
  version : Option Nat
  content : Nat
deriving DecidableEq, Repr

/-- A JavaScript value passed by a migration step to its continuation:
a replacement document, null, or undefined (the callback invoked with
no argument). -/
inductive JSVal where
  | jnull
  | jundef
  | jobj (d : Doc)
deriving DecidableEq, Repr

/-- A migration step object from migrations.steps (src/index.js line 52).
The field up is the transform; none models a step object whose up slot
is not a function (the source checks typeof migration.up). -/
structure Step where
  id : Nat
  up : Option (Doc → JSVal)

/-- Reading the version marker: doc[migrations.version_field] with a
JavaScript logical-or default of 0 (src/index.js line 75). -/
def docVersion (d : Doc) : Nat := d.version.getD 0

/-- Result of migrateDocument: the continuation invoked with the final
document and modified flag, a thrown TypeError (property access on
undefined), or exhausted fuel standing for non-termination. -/
inductive MResult where
  | ok (doc : Doc) (modified : Bool)
  | typeError
  | outOfFuel
deriving DecidableEq, Repr

/-- The per-document migration state machine, src/index.js lines 74-94.
Reads the current version, looks the step up by array index, and while
version is below the target and the step has a function-valued up slot,
applies the transform, keeps the replacement when the continuation got
a truthy value, stamps the version marker with the step id, and recurses
with the sticky modified flag computed as modified or new_doc !== null
(note: undefined !== null is true).  When the version bound holds but no
step object exists at the index, the source evaluates migration.up on
undefined and throws a TypeError. -/
def migrateDocument (steps : List Step) : Nat → Doc → Nat → Bool → MResult
  | 0, _, _, _ => .outOfFuel
  | fuel + 1, doc, up_to, modified =>
    let version := docVersion doc
    if version < up_to then
      match steps[version]? with
      | none => .typeError
      | some migration =>
        match migration.up with
        | none => .ok doc modified
        | some up =>
          let res := up doc
          let doc1 := match res with
            | .jobj d => d
            | _ => doc
          let doc2 := { doc1 with version := some migration.id }
          migrateDocument steps fuel doc2 up_to
            (modified || match res with
              | .jnull => false
              | _ => true)
    else .ok doc modified

/-- Progress accounting, the module-level progress object of
src/index.js lines 60-65.  intervalId being set and not yet cleared is
modelled by the boolean intervalActive. -/
structure Progress where
  done : Nat
  total : Nat
  written : Nat
  intervalActive : Bool
deriving DecidableEq, Repr

/-- The candidate filter of the migrations/list view queries: the query
passes endkey equal to up_to - 1 (JavaScript integer arithmetic, hence
the cast to Int), and the view keys documents by their version marker,
so a row matches when its version is at most up_to - 1. -/
def candidate (up_to : Nat) (d : Doc) : Bool :=
  decide ((docVersion d : Int) ≤ (up_to : Int) - 1)

/-- Rows returned by db.view('migrations', 'list', ...) on a given
store state: the documents whose version marker is below the target,
in stable store order (the key order of the view is abstracted as the
order of the store list). -/
def viewRows (store : List Doc) (up_to : Nat) : List Doc :=
  store.filter (candidate up_to)

/-- db.insert as a CouchDB upsert: overwrite the document carrying the
same identifier when one exists, otherwise append. -/
def dbInsert (store : List Doc) (doc : Doc) : List Doc :=
  if store.any (fun d => d.id == doc.id) then
    store.map (fun d => if d.id == doc.id then doc else d)
  else store ++ [doc]

/-- State threaded through a batch run: the store contents, the
progress counters, and the trace of every intermediate counter state a
progress tick could observe (oldest first). -/
structure BState where
  store : List Doc
  prog : Progress
  trace : List Progress
deriving DecidableEq, Repr

/-- Result of handling one row of a page (src/index.js lines 122-134):
on a normal migration the store and counters are updated; when
migrateDocument throws or never invokes its continuation, the failure
is recorded. -/
inductive RowOut where
  | ok (store : List Doc) (p : Progress) (snaps : List Progress)
  | fail (r : MResult)
deriving DecidableEq, Repr

/-- Handling one row: run migrateDocument on the row document, persist
the result, then increment done by one and written by one iff modified
is truthy.  The source increments done first and written second, so
both intermediate counter states are recorded as tick snapshots.  (Its
initial modified argument is omitted in the source, hence undefined,
which is falsy: modelled as false.) -/
def processRow (steps : List Step) (mfuel up_to : Nat) (st : List Doc) (p : Progress)
    (row : Doc) : RowOut :=
  match migrateDocument steps mfuel row up_to false with
  | .ok doc modified =>
    let p1 := { p with done := p.done + 1 }
    let p2 := { p1 with written := p1.written + if modified then 1 else 0 }
    .ok (dbInsert st doc) p2 [p1, p2]
  | r => .fail r

/-- Result of draining one page of rows. -/
inductive BOut where
  | ok (s : BState)
  | crashed (s : BState)
  | hung (s : BState)
deriving DecidableEq, Repr

/-- Draining the rows of one page.  The async.eachLimit concurrency cap
of 32 only permits reordering of completions; each completed document
contributes one done increment followed by its own written increment,
so the sequential order is one admissible interleaving and the counter
trace is modelled sequentially. -/
def processRows (steps : List Step) (mfuel up_to : Nat) : List Doc → BState → BOut
  | [], s => .ok s
  | row :: rest, s =>
    match processRow steps mfuel up_to s.store s.prog row with
    | .ok st1 p1 snaps => processRows steps mfuel up_to rest ⟨st1, p1, s.trace ++ snaps⟩
    | .fail .typeError => .crashed s
    | .fail _ => .hung s

/-- Outcome of the batch loop and of a whole run: the completion
callback invoked with an error argument or with none, an uncaught
exception, or a run that never completes (fuel exhausted). -/
inductive Outcome where
  | callback (err : Option String) (s : BState)
  | crashed (s : BState)
  | hung (s : BState)
deriving DecidableEq, Repr

/-- The state carried by an outcome. -/
def outState : Outcome → BState
  | .callback _ s => s
  | .crashed s => s
  | .hung s => s

/-- The error argument handed to the completion callback (none when the
callback was invoked without an error, or when no callback ran). -/
def outErr : Outcome → Option String
  | .callback e _ => e
  | _ => none

/-- Whether the outcome is an invocation of the completion callback. -/
def isCallbackOut : Outcome → Bool
  | .callback _ _ => true
  | _ => false

/-- The batch driver treatDocuments, src/index.js lines 103-141: query
one page of candidate rows (a failing query is reported to the callback
as an Error wrapping the store message and aborts the loop), finish
when the page is empty, otherwise drain the page and re-query with the
same filter.  qIdx numbers the page queries so a failure schedule can
be supplied; pfuel bounds the page recursion. -/
def treatDocuments (steps : List Step) (pageFail : Nat → Option String)
    (mfuel limit up_to : Nat) : Nat → Nat → BState → Outcome
  | _, 0, s => .hung s
  | qIdx, pfuel + 1, s =>
    match pageFail qIdx with
    | some e => .callback (some ("Unable to retrive data: " ++ e)) s
    | none =>
      let rows := (viewRows s.store up_to).take limit
      if rows.isEmpty then .callback none s
      else
        match processRows steps mfuel up_to rows s with
        | .ok s1 => treatDocuments steps pageFail mfuel limit up_to (qIdx + 1) pfuel s1
        | .crashed s1 => .crashed s1
        | .hung s1 => .hung s1

/-- The JavaScript defaulting in executeMigrations line 154,
up_to = up_to or migrations.last: null and the falsy number 0 both fall
back to the highest known version. -/
def effectiveTarget (up_to : Option Nat) (lastv : Nat) : Nat :=
  match up_to with
  | some v => if v = 0 then lastv else v
  | none => lastv

/-- executeMigrations, src/index.js lines 149-179: fail the callback
when no migration was ever loaded, resolve the effective target, run
the count query (a failure is reported through the callback), snapshot
total, start the progress interval, and run the batch loop.  The batch
completion handler ignores the error argument of treatDocuments, logs a
summary, clears the interval and invokes the run callback with no
arguments.  An uncaught exception or a hung batch leaves the interval
uncleared. -/
def executeMigrations (steps : List Step) (last : Option Nat) (countFail : Option String)
    (pageFail : Nat → Option String) (mfuel pfuel : Nat) (up_to : Option Nat)
    (s : BState) : Outcome :=
  match last with
  | none => .callback (some ("No migrations found")) s
  | some lastv =>
    let target := effectiveTarget up_to lastv
    match countFail with
    | some e => .callback (some ("Unable to retrive data: " ++ e)) s
    | none =>
      let p0 := { s.prog with total := (viewRows s.store target).length,
                              intervalActive := true }
      let s0 : BState := ⟨s.store, p0, s.trace ++ [p0]⟩
      match treatDocuments steps pageFail mfuel 512 target 0 pfuel s0 with
      | .callback _ s1 =>
        let p1 := { s1.prog with intervalActive := false }
        .callback none ⟨s1.store, p1, s1.trace ++ [p1]⟩
      | .crashed s1 => .crashed s1
      | .hung s1 => .hung s1

/-- The registry object of src/index.js lines 25-53, together with a
ghost counter of how many times loadFiles has completed (needed to
observe the load-once contract).  The loaded flag is declared false and,
as in the source, never assigned anywhere. -/
structure MigrationsObj where
  last : Option Nat
  loaded : Bool
  steps : List Step
  loadCount : Nat

/-- The string JavaScript compares when Array.prototype.sort is called
with no comparator: String(step), which is the same constant for every
plain object. -/
def stepKey (_ : Step) : String := "[object Object]"

/-- One stable insertion of an element by its sort key: the element goes
after every element whose key is not greater, which preserves the
relative order of elements with equal keys. -/
def sortInsert (x : Step) : List Step → List Step
  | [] => [x]
  | y :: ys => if stepKey x < stepKey y then x :: y :: ys else y :: sortInsert x ys

/-- migrations.steps.sort() with no comparator (src/index.js line 219):
a stable sort comparing String(element).  Because every step object
stringifies to the same constant, this sort never reorders anything. -/
def sortDefault (l : List Step) : List Step :=
  l.foldl (fun acc x => sortInsert x acc) []

/-- loadFiles, src/index.js lines 209-224: the autoloader registers the
step objects of the migration files into migrations.steps (modelled as
appending the supplied list in file order), then the collection is
sorted with the default comparator and last is set to the id of the
final element with a logical-or null default (so a final id of 0 yields
null).  On an empty collection the source reads .id of undefined and
throws, modelled as none.  The loaded flag is not assigned. -/
def loadFiles (files : List Step) (m : MigrationsObj) : Option MigrationsObj :=
  let steps1 := sortDefault (m.steps ++ files)
  match steps1.getLast? with
  | none => none
  | some s =>
    some { m with steps := steps1,
                  last := if s.id = 0 then none else some s.id,
                  loadCount := m.loadCount + 1 }

/-- The defaulting in doMigrations line 190, up_to = up_to or null: an
explicit target of 0 is falsy and collapses to null. -/
def orNullNat (x : Option Nat) : Option Nat :=
  match x with
  | some v => if v = 0 then none else some v
  | none => none

/-- doMigrations, src/index.js lines 189-202: normalise the target,
then load the migration files unless the loaded flag is set, and run
executeMigrations.  A throwing loadFiles propagates as a crash. -/
def doMigrations (files : List Step) (countFail : Option String)
    (pageFail : Nat → Option String) (mfuel pfuel : Nat) (up_to : Option Nat)
    (m : MigrationsObj) (s : BState) : MigrationsObj × Outcome :=
  let u := orNullNat up_to
  if m.loaded then
    (m, executeMigrations m.steps m.last countFail pageFail mfuel pfuel u s)
  else
    match loadFiles files m with
    | none => (m, .crashed s)
    | some m1 => (m1, executeMigrations m1.steps m1.last countFail pageFail mfuel pfuel u s)

/-- The effective target as resolved by the composition of doMigrations
and executeMigrations. -/
def resolvedTarget (up_to : Option Nat) (lastv : Nat) : Nat :=
  effectiveTarget (orNullNat up_to) lastv

/-- Every counter state a progress tick may observe satisfies the full
invariant written at most done at most total. -/
def TraceOK (tr : List Progress) : Prop :=
  ∀ p ∈ tr, p.written ≤ p.done ∧ p.done ≤ p.total

/-- Every counter state a progress tick may observe has written at most
done. -/
def TraceWD (tr : List Progress) : Prop :=
  ∀ p ∈ tr, p.written ≤ p.done

/-- The state carried by a page-drain result. -/
def boutState : BOut → BState
  | .ok s => s
  | .crashed s => s
  | .hung s => s

lemma migrate_succ (steps : List Step) (fuel : Nat) (doc : Doc) (T : Nat) (m : Bool) :
    migrateDocument steps (fuel + 1) doc T m =
      if docVersion doc < T then
        match steps[docVersion doc]? with
        | none => .typeError
        | some migration =>
          match migration.up with
          | none => .ok doc m
          | some up =>
            migrateDocument steps fuel
              { (match up doc with | .jobj d => d | _ => doc) with version := some migration.id } T
              (m || match up doc with | .jnull => false | _ => true)
      else .ok doc m := rfl

lemma migrate_done (steps : List Step) (doc : Doc) (T fuel : Nat) (m : Bool)
    (h : ¬ docVersion doc < T) :
    migrateDocument steps (fuel + 1) doc T m = .ok doc m := by
  rw [migrate_succ, if_neg h]

lemma migrate_noup (steps : List Step) (doc : Doc) (T fuel : Nat) (m : Bool) (s : Step)
    (hv : docVersion doc < T) (hs : steps[docVersion doc]? = some s) (hu : s.up = none) :
    migrateDocument steps (fuel + 1) doc T m = .ok doc m := by
  rw [migrate_succ, if_pos hv]
  simp only [hs, hu]

lemma migrate_throw (steps : List Step) (doc : Doc) (T fuel : Nat) (m : Bool)
    (hv : docVersion doc < T) (hs : steps[docVersion doc]? = none) :
    migrateDocument steps (fuel + 1) doc T m = .typeError := by
  rw [migrate_succ, if_pos hv]
  simp only [hs]

lemma migrate_step (steps : List Step) (doc : Doc) (T fuel : Nat) (m : Bool) (s : Step)
    (f : Doc → JSVal)
    (hv : docVersion doc < T) (hs : steps[docVersion doc]? = some s) (hu : s.up = some f) :
    migrateDocument steps (fuel + 1) doc T m =
      migrateDocument steps fuel
        { (match f doc with | .jobj d => d | _ => doc) with version := some s.id } T
        (m || match f doc with | .jnull => false | _ => true) := by
  rw [migrate_succ, if_pos hv]
  simp only [hs, hu]

lemma migrate_sticky (steps : List Step) :
    ∀ (fuel : Nat) (doc : Doc) (T : Nat) (d : Doc) (m : Bool),
      migrateDocument steps fuel doc T true = .ok d m → m = true := by
  intro fuel
  induction fuel with
  | zero => intro doc T d m h; simp [migrateDocument] at h
  | succ n ih =>
    intro doc T d m h
    by_cases hv : docVersion doc < T
    · match hs : steps[docVersion doc]? with
      | none => rw [migrate_throw steps doc T n true hv hs] at h; cases h
      | some s =>
        match hu : s.up with
        | none =>
          rw [migrate_noup steps doc T n true s hv hs hu] at h
          cases h; rfl
        | some f =>
          rw [migrate_step steps doc T n true s f hv hs hu] at h
          rw [Bool.true_or] at h
          exact ih _ _ _ _ h
    · rw [migrate_done steps doc T n true hv] at h
      cases h; rfl

lemma migrate_allnull (steps : List Step)
    (hnull : ∀ s ∈ steps, ∀ f, s.up = some f → ∀ x, f x = .jnull) :
    ∀ (fuel : Nat) (doc : Doc) (T : Nat) (d : Doc) (m : Bool),
      migrateDocument steps fuel doc T false = .ok d m → m = false := by
  intro fuel
  induction fuel with
  | zero => intro doc T d m h; simp [migrateDocument] at h
  | succ n ih =>
    intro doc T d m h
    by_cases hv : docVersion doc < T
    · match hs : steps[docVersion doc]? with
      | none => rw [migrate_throw steps doc T n false hv hs] at h; cases h
      | some s =>
        match hu : s.up with
        | none =>
          rw [migrate_noup steps doc T n false s hv hs hu] at h
          cases h; rfl
        | some f =>
          rw [migrate_step steps doc T n false s f hv hs hu] at h
          have hmem : s ∈ steps := by
            have := List.getElem?_eq_some_iff.mp hs
            obtain ⟨hlt, hget⟩ := this
            exact hget ▸ List.getElem_mem hlt
          rw [hnull s hmem f hu doc] at h
          exact ih _ _ _ _ h
    · rw [migrate_done steps doc T n false hv] at h
      cases h; rfl

lemma migrate_idem (steps : List Step) :
    ∀ (fuel : Nat) (doc : Doc) (T : Nat) (m0 : Bool) (d : Doc) (m : Bool),
      migrateDocument steps fuel doc T m0 = .ok d m →
      ∀ fuel2 : Nat, migrateDocument steps (fuel2 + 1) d T false = .ok d false := by
  intro fuel
  induction fuel with
  | zero => intro doc T m0 d m h; simp [migrateDocument] at h
  | succ n ih =>
    intro doc T m0 d m h fuel2
    by_cases hv : docVersion doc < T
    · match hs : steps[docVersion doc]? with
      | none => rw [migrate_throw steps doc T n m0 hv hs] at h; cases h
      | some s =>
        match hu : s.up with
        | none =>
          rw [migrate_noup steps doc T n m0 s hv hs hu] at h
          cases h
          exact migrate_noup steps doc T fuel2 false s hv hs hu
        | some f =>
          rw [migrate_step steps doc T n m0 s f hv hs hu] at h
          exact ih _ _ _ _ _ h fuel2
    · rw [migrate_done steps doc T n m0 hv] at h
      cases h
      exact migrate_done steps doc T fuel2 false hv

lemma candidate_iff (up_to : Nat) (d : Doc) :
    candidate up_to d = true ↔ docVersion d < up_to := by
  simp only [candidate, decide_eq_true_eq]
  omega

lemma list_map_congr_mem {α β : Type} (f g : α → β) :
    ∀ (l : List α), (∀ b ∈ l, f b = g b) → l.map f = l.map g
  | [], _ => rfl
  | b :: bs, h => by
    rw [List.map_cons, List.map_cons, h b (by simp),
      list_map_congr_mem f g bs (fun x hx => h x (by simp [hx]))]

lemma map_fix {α : Type} (f : α → α) (l : List α) (h : ∀ b ∈ l, f b = b) :
    l.map f = l := by
  rw [list_map_congr_mem f id l h, List.map_id]

lemma dbInsert_eq_map (st : List Doc) (d1 r : Doc) (hr : r ∈ st) (hid : d1.id = r.id) :
    dbInsert st d1 = st.map (fun d => if d.id == d1.id then d1 else d) := by
  unfold dbInsert
  rw [if_pos]
  exact List.any_eq_true.mpr ⟨r, hr, by simp [hid]⟩

lemma map_id_insert (st : List Doc) (d1 : Doc) :
    (st.map (fun d => if d.id == d1.id then d1 else d)).map Doc.id = st.map Doc.id := by
  rw [List.map_map]
  apply list_map_congr_mem
  intro b _
  simp only [Function.comp_apply]
  by_cases hb : b.id = d1.id
  · simp [hb]
  · simp [hb]

lemma mem_map_insert (st : List Doc) (d1 b : Doc) (hb : b ∈ st) (hbid : ¬ b.id = d1.id) :
    b ∈ st.map (fun d => if d.id == d1.id then d1 else d) := by
  refine List.mem_map.mpr ⟨b, hb, ?_⟩
  simp [hbid]

lemma view_len_map (T : Nat) (d1 : Doc) (hv : ¬ docVersion d1 < T) :
    ∀ (st : List Doc) (r : Doc), (st.map Doc.id).Nodup → r ∈ st → d1.id = r.id →
      docVersion r < T →
      (viewRows (st.map (fun d => if d.id == d1.id then d1 else d)) T).length + 1 =
        (viewRows st T).length := by
  intro st
  induction st with
  | nil => intro r _ hr; cases hr
  | cons a tl ih =>
    intro r hnd hr hid hcr
    rw [List.map_cons, List.nodup_cons] at hnd
    obtain ⟨ha, hnd2⟩ := hnd
    rcases List.mem_cons.mp hr with heq | hrtl
    · subst heq
      have hfa : (if r.id == d1.id then d1 else r) = d1 := by simp [hid]
      have hmap : tl.map (fun d => if d.id == d1.id then d1 else d) = tl := by
        apply map_fix
        intro b hb
        have hab : r.id ≠ b.id := fun hcontra => ha (hcontra ▸ List.mem_map_of_mem Doc.id hb)
        have hbne : ¬ b.id = d1.id := by rw [hid]; exact fun hx => hab hx.symm
        simp [hbne]
      rw [List.map_cons, hfa, hmap]
      unfold viewRows
      rw [List.filter_cons, List.filter_cons]
      have hc1 : candidate T d1 = false := by
        rw [← Bool.not_eq_true, candidate_iff]; exact hv
      have hca : candidate T r = true := (candidate_iff T r).mpr hcr
      rw [hc1, hca]
      rw [if_neg (by decide), if_pos (by decide)]
      simp
    · have hane : ¬ a.id = d1.id := by
        rw [hid]
        exact fun hx => ha (hx ▸ List.mem_map_of_mem Doc.id hrtl)
      have hfa : (if a.id == d1.id then d1 else a) = a := by simp [hane]
      rw [List.map_cons, hfa]
      have hlen := ih r hnd2 hrtl hid hcr
      unfold viewRows at hlen ⊢
      rw [List.filter_cons, List.filter_cons]
      cases hca : candidate T a
      · rw [if_neg (by decide), if_neg (by decide)]
        omega
      · rw [if_pos (by decide), if_pos (by decide)]
        simp only [List.length_cons]
        omega

lemma traceOK_append (tr sn : List Progress) (h1 : TraceOK tr) (h2 : TraceOK sn) :
    TraceOK (tr ++ sn) := by
  intro p hp
  rcases List.mem_append.mp hp with h | h
  · exact h1 p h
  · exact h2 p h

lemma view_pos (st : List Doc) (r : Doc) (T : Nat) (hr : r ∈ st) (hc : docVersion r < T) :
    0 < (viewRows st T).length :=
  List.length_pos_of_mem (List.mem_filter.mpr ⟨hr, (candidate_iff T r).mpr hc⟩)

lemma processRows_inv (steps : List Step) (mfuel T : Nat)
    (hmig : ∀ d : Doc, docVersion d < T → ∃ d1 md,
      migrateDocument steps mfuel d T false = .ok d1 md ∧ T ≤ docVersion d1 ∧ d1.id = d.id) :
    ∀ (rows : List Doc) (s : BState),
      (s.store.map Doc.id).Nodup →
      (∀ r ∈ rows, r ∈ s.store ∧ docVersion r < T) →
      (rows.map Doc.id).Nodup →
      s.prog.written ≤ s.prog.done →
      s.prog.done + (viewRows s.store T).length ≤ s.prog.total →
      TraceOK s.trace →
      ∃ s1, processRows steps mfuel T rows s = .ok s1 ∧
        (s1.store.map Doc.id).Nodup ∧
        s1.prog.written ≤ s1.prog.done ∧
        s1.prog.done + (viewRows s1.store T).length ≤ s1.prog.total ∧
        s1.prog.total = s.prog.total ∧
        TraceOK s1.trace := by
  intro rows
  induction rows with
  | nil =>
    intro s h1 h2 h3 h4 h5 h6
    exact ⟨s, rfl, h1, h4, h5, rfl, h6⟩
  | cons r rest ih =>
    intro s h1 h2 h3 h4 h5 h6
    obtain ⟨hrmem, hrc⟩ := h2 r (by simp)
    obtain ⟨d1, md, hmg, hvd, hidd⟩ := hmig r hrc
    rw [List.map_cons, List.nodup_cons] at h3
    obtain ⟨hrid, h3'⟩ := h3
    have hvd' : ¬ docVersion d1 < T := not_lt.mpr hvd
    have hins : dbInsert s.store d1 =
        s.store.map (fun d => if d.id == d1.id then d1 else d) :=
      dbInsert_eq_map s.store d1 r hrmem hidd
    have hlen : (viewRows (dbInsert s.store d1) T).length + 1 =
        (viewRows s.store T).length := by
      rw [hins]
      exact view_len_map T d1 hvd' s.store r h1 hrmem hidd hrc
    have hpos : 0 < (viewRows s.store T).length := view_pos s.store r T hrmem hrc
    have hstep : processRows steps mfuel T (r :: rest) s =
        processRows steps mfuel T rest
          ⟨dbInsert s.store d1,
           { s.prog with done := s.prog.done + 1,
                         written := s.prog.written + if md then 1 else 0 },
           s.trace ++ [{ s.prog with done := s.prog.done + 1 },
             { s.prog with done := s.prog.done + 1,
                           written := s.prog.written + if md then 1 else 0 }]⟩ := by
      show (match processRow steps mfuel T s.store s.prog r with
        | .ok st1 p1 snaps => processRows steps mfuel T rest ⟨st1, p1, s.trace ++ snaps⟩
        | .fail .typeError => BOut.crashed s
        | .fail _ => BOut.hung s) = _
      rw [processRow, hmg]
    rw [hstep]
    have hres := ih ⟨dbInsert s.store d1,
        { s.prog with done := s.prog.done + 1,
                      written := s.prog.written + if md then 1 else 0 },
        s.trace ++ [{ s.prog with done := s.prog.done + 1 },
          { s.prog with done := s.prog.done + 1,
                        written := s.prog.written + if md then 1 else 0 }]⟩
      (by rw [hins]; exact (map_id_insert s.store d1) ▸ (map_id_insert s.store d1).symm ▸ h1)
      ?hmem ?hnodup ?hwd ?htot ?htr
    case hmem =>
      intro b hb
      obtain ⟨hbs, hbc⟩ := h2 b (by simp [hb])
      refine ⟨?_, hbc⟩
      rw [hins]
      apply mem_map_insert
      · exact hbs
      · rw [hidd]
        intro hx
        exact hrid (hx ▸ List.mem_map_of_mem Doc.id hb)
    case hnodup => exact h3'
    case hwd =>
      simp only
      cases md <;> simp <;> omega
    case htot =>
      simp only
      omega
    case htr =>
      apply traceOK_append _ _ h6
      intro p hp
      simp only [List.mem_cons, List.mem_singleton] at hp
      rcases hp with rfl | rfl | hfalse
      · constructor
        · simp; omega
        · simp; omega
      · constructor
        · simp; cases md <;> simp <;> omega
        · simp; omega
      · cases hfalse
    obtain ⟨s1, heq, hrest⟩ := hres
    exact ⟨s1, heq, hrest⟩

lemma treat_succ (steps : List Step) (pageFail : Nat → Option String)
    (mfuel limit T qIdx n : Nat) (s : BState) :
    treatDocuments steps pageFail mfuel limit T qIdx (n + 1) s =
      match pageFail qIdx with
      | some e => .callback (some ("Unable to retrive data: " ++ e)) s
      | none =>
        if ((viewRows s.store T).take limit).isEmpty then .callback none s
        else
          match processRows steps mfuel T ((viewRows s.store T).take limit) s with
          | .ok s1 => treatDocuments steps pageFail mfuel limit T (qIdx + 1) n s1
          | .crashed s1 => .crashed s1
          | .hung s1 => .hung s1 := rfl

lemma treatDocuments_inv (steps : List Step) (pageFail : Nat → Option String)
    (mfuel limit T : Nat)
    (hmig : ∀ d : Doc, docVersion d < T → ∃ d1 md,
      migrateDocument steps mfuel d T false = .ok d1 md ∧ T ≤ docVersion d1 ∧ d1.id = d.id) :
    ∀ (pfuel qIdx : Nat) (s : BState),
      (s.store.map Doc.id).Nodup →
      s.prog.written ≤ s.prog.done →
      s.prog.done + (viewRows s.store T).length ≤ s.prog.total →
      TraceOK s.trace →
      (outState (treatDocuments steps pageFail mfuel limit T qIdx pfuel s)).prog.written ≤
          (outState (treatDocuments steps pageFail mfuel limit T qIdx pfuel s)).prog.done ∧
        (outState (treatDocuments steps pageFail mfuel limit T qIdx pfuel s)).prog.done ≤
          (outState (treatDocuments steps pageFail mfuel limit T qIdx pfuel s)).prog.total ∧
        TraceOK (outState (treatDocuments steps pageFail mfuel limit T qIdx pfuel s)).trace := by
  intro pfuel
  induction pfuel with
  | zero =>
    intro qIdx s h1 h2 h3 h4
    exact ⟨h2, Nat.le_trans (Nat.le_add_right _ _) h3, h4⟩
  | succ n ih =>
    intro qIdx s h1 h2 h3 h4
    rw [treat_succ]
    cases hpf : pageFail qIdx with
    | some e => exact ⟨h2, Nat.le_trans (Nat.le_add_right _ _) h3, h4⟩
    | none =>
      simp only
      by_cases hempty : ((viewRows s.store T).take limit).isEmpty
      · rw [if_pos hempty]
        exact ⟨h2, Nat.le_trans (Nat.le_add_right _ _) h3, h4⟩
      · rw [if_neg hempty]
        have hsub : List.Sublist ((viewRows s.store T).take limit) s.store :=
          (List.take_sublist limit (viewRows s.store T)).trans (List.filter_sublist s.store)
        have hmem : ∀ r ∈ (viewRows s.store T).take limit,
            r ∈ s.store ∧ docVersion r < T := by
          intro r hr
          have hrv : r ∈ viewRows s.store T := List.mem_of_mem_take hr
          have hrf := List.mem_filter.mp hrv
          exact ⟨hrf.1, (candidate_iff T r).mp hrf.2⟩
        have hnd : (((viewRows s.store T).take limit).map Doc.id).Nodup :=
          List.Nodup.sublist (hsub.map Doc.id) h1
        obtain ⟨s1, heq, ha, hb, hc, hd, he⟩ :=
          processRows_inv steps mfuel T hmig ((viewRows s.store T).take limit) s
            h1 hmem hnd h2 h3 h4
        rw [heq]
        exact ih (qIdx + 1) s1 ha hb hc he

lemma processRows_cons (steps : List Step) (mfuel T : Nat) (r : Doc) (rest : List Doc)
    (s : BState) :
    processRows steps mfuel T (r :: rest) s =
      match processRow steps mfuel T s.store s.prog r with
      | .ok st1 p1 snaps => processRows steps mfuel T rest ⟨st1, p1, s.trace ++ snaps⟩
      | .fail .typeError => .crashed s
      | .fail _ => .hung s := rfl

lemma traceWD_append (tr sn : List Progress) (h1 : TraceWD tr) (h2 : TraceWD sn) :
    TraceWD (tr ++ sn) := by
  intro p hp
  rcases List.mem_append.mp hp with h | h
  · exact h1 p h
  · exact h2 p h

lemma processRows_wd (steps : List Step) (mfuel T : Nat) :
    ∀ (rows : List Doc) (s : BState),
      s.prog.written ≤ s.prog.done →
      TraceWD s.trace →
      (boutState (processRows steps mfuel T rows s)).prog.written ≤
          (boutState (processRows steps mfuel T rows s)).prog.done ∧
        TraceWD (boutState (processRows steps mfuel T rows s)).trace := by
  intro rows
  induction rows with
  | nil =>
    intro s h2 htr
    exact ⟨h2, htr⟩
  | cons r rest ih =>
    intro s h2 htr
    rw [processRows_cons]
    cases hmg : migrateDocument steps mfuel r T false with
    | ok d1 md =>
      have hstep : processRow steps mfuel T s.store s.prog r =
          .ok (dbInsert s.store d1)
            { s.prog with done := s.prog.done + 1,
                          written := s.prog.written + if md then 1 else 0 }
            [{ s.prog with done := s.prog.done + 1 },
             { s.prog with done := s.prog.done + 1,
                           written := s.prog.written + if md then 1 else 0 }] := by
        rw [processRow, hmg]
      rw [hstep]
      apply ih
      · simp only
        cases md <;> simp <;> omega
      · apply traceWD_append _ _ htr
        intro p hp
        simp only [List.mem_cons, List.mem_singleton] at hp
        rcases hp with rfl | rfl | hfalse
        · simp; omega
        · simp; cases md <;> simp <;> omega
        · cases hfalse
    | typeError =>
      have hstep : processRow steps mfuel T s.store s.prog r = .fail .typeError := by
        rw [processRow, hmg]
      rw [hstep]
      exact ⟨h2, htr⟩
    | outOfFuel =>
      have hstep : processRow steps mfuel T s.store s.prog r = .fail .outOfFuel := by
        rw [processRow, hmg]
      rw [hstep]
      exact ⟨h2, htr⟩

lemma treatDocuments_wd (steps : List Step) (pageFail : Nat → Option String)
    (mfuel limit T : Nat) :
    ∀ (pfuel qIdx : Nat) (s : BState),
      s.prog.written ≤ s.prog.done →
      TraceWD s.trace →
      (outState (treatDocuments steps pageFail mfuel limit T qIdx pfuel s)).prog.written ≤
          (outState (treatDocuments steps pageFail mfuel limit T qIdx pfuel s)).prog.done ∧
        TraceWD (outState (treatDocuments steps pageFail mfuel limit T qIdx pfuel s)).trace := by
  intro pfuel
  induction pfuel with
  | zero =>
    intro qIdx s h2 htr
    exact ⟨h2, htr⟩
  | succ n ih =>
    intro qIdx s h2 htr
    rw [treat_succ]
    cases hpf : pageFail qIdx with
    | some e => exact ⟨h2, htr⟩
    | none =>
      simp only
      by_cases hempty : ((viewRows s.store T).take limit).isEmpty
      · rw [if_pos hempty]
        exact ⟨h2, htr⟩
      · rw [if_neg hempty]
        have hrows := processRows_wd steps mfuel T ((viewRows s.store T).take limit) s h2 htr
        cases hres : processRows steps mfuel T ((viewRows s.store T).take limit) s with
        | ok s1 =>
          rw [hres] at hrows
          exact ih (qIdx + 1) s1 hrows.1 hrows.2
        | crashed s1 =>
          rw [hres] at hrows
          exact hrows
        | hung s1 =>
          rw [hres] at hrows
          exact hrows

lemma exec_eq (steps : List Step) (lastv : Nat) (pageFail : Nat → Option String)
    (mfuel pfuel : Nat) (up_to : Option Nat) (s : BState) :
    executeMigrations steps (some lastv) none pageFail mfuel pfuel up_to s =
      match treatDocuments steps pageFail mfuel 512 (effectiveTarget up_to lastv) 0 pfuel
          ⟨s.store,
           { s.prog with
              total := (viewRows s.store (effectiveTarget up_to lastv)).length,
              intervalActive := true },
           s.trace ++ [{ s.prog with
              total := (viewRows s.store (effectiveTarget up_to lastv)).length,
              intervalActive := true }]⟩ with
      | .callback _ s1 =>
        .callback none ⟨s1.store, { s1.prog with intervalActive := false },
          s1.trace ++ [{ s1.prog with intervalActive := false }]⟩
      | .crashed s1 => .crashed s1
      | .hung s1 => .hung s1 := rfl

lemma sortInsert_append (x : Step) : ∀ ys : List Step, sortInsert x ys = ys ++ [x]
  | [] => rfl
  | y :: ys => by
    have hk : ¬ stepKey x < stepKey y := by
      unfold stepKey
      exact lt_irrefl _
    unfold sortInsert
    rw [if_neg hk, sortInsert_append x ys]
    rfl

lemma foldl_sortInsert (l : List Step) : ∀ acc : List Step,
    l.foldl (fun acc x => sortInsert x acc) acc = acc ++ l := by
  induction l with
  | nil => intro acc; simp
  | cons x xs ih =>
    intro acc
    rw [List.foldl_cons, ih (sortInsert x acc), sortInsert_append]
    simp

lemma sortDefault_eq_self (l : List Step) : sortDefault l = l := by
  unfold sortDefault
  rw [foldl_sortInsert l []]
  simp

lemma getLast?_mem_own {α : Type} : ∀ (l : List α) (a : α), l.getLast? = some a → a ∈ l
  | [], a, h => by cases h
  | [x], a, h => by
    simp only [List.getLast?_singleton, Option.some.injEq] at h
    simp [h]
  | x :: y :: ys, a, h => by
    rw [List.getLast?_cons_cons] at h
    exact List.mem_cons_of_mem x (getLast?_mem_own (y :: ys) a h)

lemma sorted_le_getLast : ∀ (l : List Nat) (a : Nat), l.Sorted (· ≤ ·) →
    l.getLast? = some a → ∀ b ∈ l, b ≤ a
  | [], a, _, h => by cases h
  | [x], a, hs, h => by
    simp only [List.getLast?_singleton, Option.some.injEq] at h
    intro b hb
    simp only [List.mem_singleton] at hb
    omega
  | x :: y :: ys, a, hs, h => by
    rw [List.getLast?_cons_cons] at h
    intro b hb
    rcases List.mem_cons.mp hb with rfl | hbtl
    · have hmem := getLast?_mem_own (y :: ys) a h
      exact (List.sorted_cons.mp hs).1 a hmem
    · exact sorted_le_getLast (y :: ys) a (List.sorted_cons.mp hs).2 h b hbtl

lemma getLast?_map_comm {α β : Type} (g : α → β) : ∀ l : List α,
    (l.map g).getLast? = l.getLast?.map g
  | [] => rfl
  | [x] => rfl
  | x :: y :: ys => by
    rw [List.map_cons, List.getLast?_cons_cons]
    rw [show (y :: ys).map g = g y :: ys.map g from rfl] at *
    rw [← getLast?_map_comm g (y :: ys), List.map_cons, List.getLast?_cons_cons]

/-- C1, corrected.  When the current version v is below the target and
no step object is registered at array index v, migrateDocument throws a
TypeError instead of returning the document as-is; the silent as-is
return with wasModified false happens only when a step object is
present at v whose up slot is not a function. -/
theorem c1_missing_step_behavior (steps : List Step) (doc : Doc) (T fuel : Nat)
    (hv : docVersion doc < T) :
    (steps[docVersion doc]? = none →
        migrateDocument steps (fuel + 1) doc T false = .typeError) ∧
      ∀ s : Step, steps[docVersion doc]? = some s → s.up = none →
        migrateDocument steps (fuel + 1) doc T false = .ok doc false :=
  ⟨fun hs => migrate_throw steps doc T fuel false hv hs,
   fun s hs hu => migrate_noup steps doc T fuel false s hv hs hu⟩

/-- C1, counterexample.  A document at version 5 with no step
registered at index 5 and target 10: migrate raises a TypeError, so it
does not terminate normally returning the document unchanged as the
claim states. -/
theorem c1_counterexample :
    migrateDocument [] 1 ⟨1, some 5, 0⟩ 10 false = .typeError ∧
      migrateDocument [] 1 ⟨1, some 5, 0⟩ 10 false ≠ .ok ⟨1, some 5, 0⟩ false := by
  exact ⟨rfl, by decide⟩

/-- C1, witness for the corrected statement at concrete inputs. -/
theorem c1_witness :
    migrateDocument [] 1 ⟨0, some 5, 0⟩ 10 false = .typeError ∧
      migrateDocument [⟨1, none⟩] 1 ⟨0, none, 0⟩ 1 false = .ok ⟨0, none, 0⟩ false :=
  ⟨(c1_missing_step_behavior [] ⟨0, some 5, 0⟩ 10 0 (by decide)).1 rfl,
   (c1_missing_step_behavior [⟨1, none⟩] ⟨0, none, 0⟩ 1 0 (by decide)).2 ⟨1, none⟩ rfl rfl⟩

/-- C2, corrected.  When the very first page query fails (and the
preceding count query succeeded), done and written remain at their
initial zero values and the interval is cleared, but the run callback
receives no error: the Error built by treatDocuments is dropped by the
batch completion handler of executeMigrations, which invokes the run
callback with no arguments. -/
theorem c2_error_swallowed (steps : List Step) (lastv : Nat) (pageFail : Nat → Option String)
    (e : String) (mfuel pfuel : Nat) (store : List Doc) (up_to : Option Nat)
    (h1 : pageFail 0 = some e) (hp : 0 < pfuel) :
    executeMigrations steps (some lastv) none pageFail mfuel pfuel up_to
        ⟨store, ⟨0, 0, 0, false⟩, []⟩ =
      .callback none
        ⟨store,
         ⟨0, (viewRows store (effectiveTarget up_to lastv)).length, 0, false⟩,
         [⟨0, (viewRows store (effectiveTarget up_to lastv)).length, 0, true⟩,
          ⟨0, (viewRows store (effectiveTarget up_to lastv)).length, 0, false⟩]⟩ := by
  obtain ⟨k, rfl⟩ : ∃ k, pfuel = k + 1 := ⟨pfuel - 1, by omega⟩
  rw [exec_eq, treat_succ]
  simp only [h1]
  rfl

/-- C2, counterexample.  First page query fails: the run ends in a
callback whose error argument is none rather than a StoreQueryError;
the counter and timer parts of the claim do hold. -/
theorem c2_counterexample :
    outErr (executeMigrations [] (some 1) none (fun _ => some ("db down")) 0 2 none
        ⟨[], ⟨0, 0, 0, false⟩, []⟩) = none ∧
    isCallbackOut (executeMigrations [] (some 1) none (fun _ => some ("db down")) 0 2 none
        ⟨[], ⟨0, 0, 0, false⟩, []⟩) = true ∧
    (outState (executeMigrations [] (some 1) none (fun _ => some ("db down")) 0 2 none
        ⟨[], ⟨0, 0, 0, false⟩, []⟩)).prog.done = 0 ∧
    (outState (executeMigrations [] (some 1) none (fun _ => some ("db down")) 0 2 none
        ⟨[], ⟨0, 0, 0, false⟩, []⟩)).prog.written = 0 ∧
    (outState (executeMigrations [] (some 1) none (fun _ => some ("db down")) 0 2 none
        ⟨[], ⟨0, 0, 0, false⟩, []⟩)).prog.intervalActive = false := by
  refine ⟨rfl, rfl, rfl, rfl, rfl⟩

/-- C2, witness for the corrected statement at concrete inputs. -/
theorem c2_witness :
    executeMigrations [] (some 1) none (fun _ => some ("boom")) 0 1 none
        ⟨[], ⟨0, 0, 0, false⟩, []⟩ =
      .callback none ⟨[], ⟨0, 0, 0, false⟩, [⟨0, 0, 0, true⟩, ⟨0, 0, 0, false⟩]⟩ :=
  c2_error_swallowed [] 1 (fun _ => some ("boom")) "boom" 0 1 [] none rfl (by decide)

/-- C3, code bug.  The loaded flag is declared and checked by
doMigrations but never assigned by loadFiles or anything else, so the
step-loading procedure runs on every call to the entry point, not
exactly once: after two calls on a fresh instance the load count is two
and the flag is still false. -/
theorem c3_load_flag_never_set :
    (doMigrations [⟨1, none⟩] none (fun _ => none) 1 1 none
        ((doMigrations [⟨1, none⟩] none (fun _ => none) 1 1 none
            ⟨none, false, [], 0⟩ ⟨[], ⟨0, 0, 0, false⟩, []⟩).1)
        ⟨[], ⟨0, 0, 0, false⟩, []⟩).1.loadCount = 2 ∧
    (doMigrations [⟨1, none⟩] none (fun _ => none) 1 1 none
        ⟨none, false, [], 0⟩ ⟨[], ⟨0, 0, 0, false⟩, []⟩).1.loaded = false := by
  have h1 : loadFiles [⟨1, none⟩] ⟨none, false, [], 0⟩ =
      some ⟨some 1, false, [⟨1, none⟩], 1⟩ := by
    rw [loadFiles]
    simp only [List.nil_append, sortDefault_eq_self]
    rfl
  have h2 : loadFiles [⟨1, none⟩] ⟨some 1, false, [⟨1, none⟩], 1⟩ =
      some ⟨some 1, false, [⟨1, none⟩, ⟨1, none⟩], 2⟩ := by
    rw [loadFiles]
    simp only [sortDefault_eq_self]
    rfl
  have hd1 : (doMigrations [⟨1, none⟩] none (fun _ => none) 1 1 none
      ⟨none, false, [], 0⟩ ⟨[], ⟨0, 0, 0, false⟩, []⟩).1 = ⟨some 1, false, [⟨1, none⟩], 1⟩ := by
    rw [doMigrations]
    simp only [Bool.false_eq_true, if_false, h1]
  constructor
  · rw [hd1, doMigrations]
    simp only [Bool.false_eq_true, if_false, h2]
  · rw [hd1]

/-- C4, corrected.  The default sort never reorders step objects (they
all stringify to the same key), so the registry keeps the arrival
order, and last is the id of the final element in arrival order with a
falsy-to-null default.  Consequently the sorted-ascending and
last-equals-max properties of the claim hold exactly when the input
collection already arrives sorted by id (with a nonzero final id). -/
theorem c4_sorted_input_last_max (files : List Step) (slast : Step)
    (hsorted : (files.map Step.id).Sorted (· ≤ ·))
    (hlast : files.getLast? = some slast) (hid : slast.id ≠ 0) :
    (loadFiles files ⟨none, false, [], 0⟩).isSome = true ∧
      ∀ m1, loadFiles files ⟨none, false, [], 0⟩ = some m1 →
        m1.steps = files ∧ (m1.steps.map Step.id).Sorted (· ≤ ·) ∧
          m1.last = some slast.id ∧ slast ∈ files ∧ ∀ s ∈ files, s.id ≤ slast.id := by
  have hload : loadFiles files ⟨none, false, [], 0⟩ =
      some ⟨some slast.id, false, files, 1⟩ := by
    rw [loadFiles]
    simp only [List.nil_append, sortDefault_eq_self, hlast]
    rw [if_neg hid]
  constructor
  · rw [hload]; rfl
  · intro m1 hm1
    rw [hload] at hm1
    cases hm1
    refine ⟨rfl, hsorted, rfl, getLast?_mem_own files slast hlast, ?_⟩
    intro s hs
    have hmap : (files.map Step.id).getLast? = some slast.id := by
      rw [getLast?_map_comm Step.id files, hlast]
      rfl
    exact sorted_le_getLast (files.map Step.id) slast.id hsorted hmap s.id
      (List.mem_map_of_mem Step.id hs)

/-- C4, counterexample.  Loading the unordered collection with ids
2 then 1 leaves the steps in that order (not ascending) and sets last
to 1, while the maximum id is 2. -/
theorem c4_counterexample :
    (loadFiles [⟨2, none⟩, ⟨1, none⟩] ⟨none, false, [], 0⟩).map
        (fun m => (m.steps.map Step.id, m.last)) = some ([2, 1], some 1) ∧ (1 : Nat) ≠ 2 := by
  constructor
  · rw [loadFiles]
    simp only [List.nil_append, sortDefault_eq_self]
    rfl
  · decide

/-- C4, witness for the corrected statement at concrete inputs. -/
theorem c4_witness :
    (⟨some 2, false, [⟨1, none⟩, ⟨2, none⟩], 1⟩ : MigrationsObj).last = some 2 ∧
      (loadFiles [⟨1, none⟩, ⟨2, none⟩] ⟨none, false, [], 0⟩).isSome = true :=
  ⟨((c4_sorted_input_last_max [⟨1, none⟩, ⟨2, none⟩] ⟨2, none⟩ (by decide) rfl (by decide)).2
      ⟨some 2, false, [⟨1, none⟩, ⟨2, none⟩], 1⟩
      (by rw [loadFiles]; simp only [List.nil_append, sortDefault_eq_self]; rfl)).2.2.1,
   (c4_sorted_input_last_max [⟨1, none⟩, ⟨2, none⟩] ⟨2, none⟩ (by decide) rfl (by decide)).1⟩

/-- C5, corrected.  An explicit nonzero target resolves to itself and
an omitted target resolves to the highest known version, but an
explicit target of 0 is falsy in both logical-or defaults of the
source, so it also resolves to the highest known version, contradicting
the claim for the non-null argument 0. -/
theorem c5_target_resolution :
    (∀ v lastv : Nat, v ≠ 0 → resolvedTarget (some v) lastv = v) ∧
      (∀ lastv : Nat, resolvedTarget none lastv = lastv) ∧
      (∀ lastv : Nat, resolvedTarget (some 0) lastv = lastv) := by
  refine ⟨?_, fun lastv => rfl, fun lastv => rfl⟩
  intro v lastv hv
  simp [resolvedTarget, orNullNat, effectiveTarget, hv]

/-- C5, counterexample.  The explicit non-null target 0 with highest
known version 7 resolves to 7, not to the argument 0. -/
theorem c5_counterexample : resolvedTarget (some 0) 7 = 7 ∧ (7 : Nat) ≠ 0 := by decide

/-- C5, witness for the corrected statement at concrete inputs. -/
theorem c5_witness :
    resolvedTarget (some 3) 7 = 3 ∧ resolvedTarget none 7 = 7 ∧
      resolvedTarget (some 0) 7 = 7 :=
  ⟨c5_target_resolution.1 3 7 (by decide), c5_target_resolution.2.1 7, c5_target_resolution.2.2 7⟩

/-- C6, corrected.  For a run started with fresh counters over a static
document set, written is at most done at every tick unconditionally;
done is at most total at every tick under the additional proviso that
document ids are distinct and that every candidate document migrates
normally to a version at least the target while keeping its id.
Without the proviso a stuck document (one whose chain halts below the
target) is re-fetched by every page query and pushes done past
total. -/
theorem c6_progress_invariant (steps : List Step) (pageFail : Nat → Option String)
    (countFail : Option String) (mfuel pfuel : Nat) (up_to : Option Nat) (lastv : Nat)
    (store : List Doc) :
    TraceWD (outState (executeMigrations steps (some lastv) countFail pageFail mfuel pfuel
        up_to ⟨store, ⟨0, 0, 0, false⟩, []⟩)).trace ∧
      (((store.map Doc.id).Nodup ∧
        ∀ d : Doc, docVersion d < effectiveTarget up_to lastv → ∃ d1 md,
          migrateDocument steps mfuel d (effectiveTarget up_to lastv) false = .ok d1 md ∧
            effectiveTarget up_to lastv ≤ docVersion d1 ∧ d1.id = d.id) →
        TraceOK (outState (executeMigrations steps (some lastv) countFail pageFail mfuel pfuel
          up_to ⟨store, ⟨0, 0, 0, false⟩, []⟩)).trace) := by
  cases countFail with
  | some e =>
    constructor
    · intro p hp
      cases hp
    · intro _ p hp
      cases hp
  | none =>
    rw [exec_eq]
    set T := effectiveTarget up_to lastv with hT
    set L := (viewRows store T).length with hL
    have hp0 : TraceWD (([] : List Progress) ++ [⟨0, L, 0, true⟩]) := by
      intro p hp
      simp only [List.nil_append, List.mem_singleton] at hp
      subst hp
      exact Nat.le_refl 0
    have hp0' : TraceOK (([] : List Progress) ++ [⟨0, L, 0, true⟩]) := by
      intro p hp
      simp only [List.nil_append, List.mem_singleton] at hp
      subst hp
      exact ⟨Nat.le_refl 0, Nat.zero_le L⟩
    have hwd := treatDocuments_wd steps pageFail mfuel 512 T pfuel 0
      ⟨store, ⟨0, L, 0, true⟩, [] ++ [⟨0, L, 0, true⟩]⟩ (Nat.le_refl 0) hp0
    constructor
    · cases hres : treatDocuments steps pageFail mfuel 512 T 0 pfuel
          ⟨store, ⟨0, L, 0, true⟩, [] ++ [⟨0, L, 0, true⟩]⟩ with
      | callback e1 s1 =>
        rw [hres] at hwd
        apply traceWD_append _ _ hwd.2
        intro p hp
        simp only [List.mem_singleton] at hp
        subst hp
        exact hwd.1
      | crashed s1 =>
        rw [hres] at hwd
        exact hwd.2
      | hung s1 =>
        rw [hres] at hwd
        exact hwd.2
    · rintro ⟨hnodup, hmig⟩
      have hok := treatDocuments_inv steps pageFail mfuel 512 T hmig pfuel 0
        ⟨store, ⟨0, L, 0, true⟩, [] ++ [⟨0, L, 0, true⟩]⟩ hnodup (Nat.le_refl 0)
        (by simp only; omega) hp0'
      cases hres : treatDocuments steps pageFail mfuel 512 T 0 pfuel
          ⟨store, ⟨0, L, 0, true⟩, [] ++ [⟨0, L, 0, true⟩]⟩ with
      | callback e1 s1 =>
        rw [hres] at hok
        apply traceOK_append _ _ hok.2.2
        intro p hp
        simp only [List.mem_singleton] at hp
        subst hp
        exact ⟨hok.1, hok.2.1⟩
      | crashed s1 =>
        rw [hres] at hok
        exact hok.2.2
      | hung s1 =>
        rw [hres] at hok
        exact hok.2.2

/-- C6, counterexample.  One document stuck below the target (its step
has no transform function, so its version never advances) is counted
again on every page pass: the tick trace of the run contains a state
with done equal to 2 and total equal to 1, violating done at most
total. -/
theorem c6_counterexample :
    ((outState (executeMigrations [⟨1, none⟩] (some 1) none (fun _ => none) 2 2 none
        ⟨[⟨0, none, 0⟩], ⟨0, 0, 0, false⟩, []⟩)).trace.any
      (fun p => decide (p.total < p.done))) = true := by decide

/-- C6, witness for the corrected statement: a complete one-step chain
over one document, checked at the tick state reached after that
document is processed. -/
theorem c6_witness :
    (Progress.mk 1 1 0 true).written ≤ (Progress.mk 1 1 0 true).done ∧
      (Progress.mk 1 1 0 true).done ≤ (Progress.mk 1 1 0 true).total :=
  (c6_progress_invariant [⟨1, some fun _ => JSVal.jnull⟩] (fun _ => none) none 2 3 none 1
      [⟨0, none, 0⟩]).2
    ⟨by decide, by
      intro d hd
      have h0 : docVersion d = 0 := by
        simp only [effectiveTarget] at hd
        omega
      refine ⟨{ d with version := some 1 }, false, ?_, ?_, rfl⟩
      · have hstep := migrate_step [⟨1, some fun _ => JSVal.jnull⟩] d
          (effectiveTarget none 1) 1 false ⟨1, some fun _ => JSVal.jnull⟩
          (fun _ => JSVal.jnull) (by simp [effectiveTarget, h0]) (by rw [h0]; rfl) rfl
        rw [hstep]
        exact migrate_done _ _ _ _ _ (by simp [docVersion, effectiveTarget])
      · simp [docVersion, effectiveTarget]⟩
    ⟨1, 1, 0, true⟩ (by decide)

/-- C7, confirmed.  A step whose transform yields null leaves the
document content unchanged, still stamps the version marker with the
step id and continues with the modified flag unchanged; a step yielding
a non-null replacement installs that replacement and continues with the
flag true; the flag is sticky (a run entered with the flag true ends
with it true); and when every transform of the registry only ever
yields null, a run entered with the flag false ends with it false, so
the flag ends true exactly when some step yielded a replacement. -/
theorem c7_transform_semantics (steps : List Step) :
    (∀ (doc : Doc) (T : Nat) (m : Bool) (fuel : Nat) (s : Step) (f : Doc → JSVal),
        docVersion doc < T → steps[docVersion doc]? = some s → s.up = some f →
        f doc = .jnull →
        migrateDocument steps (fuel + 1) doc T m =
          migrateDocument steps fuel { doc with version := some s.id } T m) ∧
      (∀ (doc : Doc) (T : Nat) (m : Bool) (fuel : Nat) (s : Step) (f : Doc → JSVal)
          (d : Doc),
        docVersion doc < T → steps[docVersion doc]? = some s → s.up = some f →
        f doc = .jobj d →
        migrateDocument steps (fuel + 1) doc T m =
          migrateDocument steps fuel { d with version := some s.id } T true) ∧
      (∀ (fuel : Nat) (doc : Doc) (T : Nat) (d : Doc) (m : Bool),
        migrateDocument steps fuel doc T true = .ok d m → m = true) ∧
      (∀ (fuel : Nat) (doc : Doc) (T : Nat) (d : Doc) (m : Bool),
        (∀ s ∈ steps, ∀ f, s.up = some f → ∀ x, f x = .jnull) →
        migrateDocument steps fuel doc T false = .ok d m → m = false) := by
  refine ⟨?_, ?_, migrate_sticky steps, fun fuel doc T d m hn h =>
    migrate_allnull steps hn fuel doc T d m h⟩
  · intro doc T m fuel s f hv hs hu hn
    rw [migrate_step steps doc T fuel m s f hv hs hu]
    simp only [hn, Bool.or_false]
  · intro doc T m fuel s f d hv hs hu hn
    rw [migrate_step steps doc T fuel m s f hv hs hu]
    simp only [hn, Bool.or_true]

/-- C7, witness exercising the null-step equation and stickiness at
concrete inputs. -/
theorem c7_transform_semantics_witness :
    migrateDocument [⟨1, some fun _ => JSVal.jnull⟩] 1 ⟨0, none, 5⟩ 1 false =
        migrateDocument [⟨1, some fun _ => JSVal.jnull⟩] 0 ⟨0, some 1, 5⟩ 1 false ∧
      (true : Bool) = true :=
  ⟨(c7_transform_semantics [⟨1, some fun _ => JSVal.jnull⟩]).1 ⟨0, none, 5⟩ 1 false 0
      ⟨1, some fun _ => JSVal.jnull⟩ (fun _ => JSVal.jnull) (by decide) rfl rfl rfl,
   (c7_transform_semantics [⟨1, some fun _ => JSVal.jnull⟩]).2.2.1 2 ⟨0, none, 5⟩ 1 ⟨0, some 1, 5⟩ true rfl⟩

/-- C8, confirmed.  A document whose version marker is at or above the
target is returned unchanged with wasModified false. -/
theorem c8_at_or_above_target_noop (steps : List Step) (doc : Doc) (T fuel : Nat) (h : T ≤ docVersion doc) :
    migrateDocument steps (fuel + 1) doc T false = .ok doc false :=
  migrate_done steps doc T fuel false (not_lt.mpr h)

/-- C8, witness at a concrete input. -/
theorem c8_at_or_above_target_noop_witness :
    migrateDocument [] 1 ⟨0, some 5, 9⟩ 3 false = .ok ⟨0, some 5, 9⟩ false :=
  c8_at_or_above_target_noop [] ⟨0, some 5, 9⟩ 3 0 (by decide)

/-- C9, confirmed.  When a migration run terminates normally, applying
migrate again with the same target to the resulting document returns
that document unchanged (with wasModified false): re-migrating an
already-migrated document is a no-op. -/
theorem c9_idempotent (steps : List Step) (fuel : Nat) (doc : Doc) (T : Nat) (m0 : Bool)
    (d : Doc) (m : Bool) (h : migrateDocument steps fuel doc T m0 = .ok d m)
    (fuel2 : Nat) :
    migrateDocument steps (fuel2 + 1) d T false = .ok d false :=
  migrate_idem steps fuel doc T m0 d m h fuel2

/-- C9, witness: a one-step rewrite run produces a document that the
second run returns unchanged. -/
theorem c9_idempotent_witness :
    migrateDocument [⟨1, some fun x => JSVal.jobj ⟨x.id, x.version, 7⟩⟩] 1
        ⟨0, some 1, 7⟩ 1 false = .ok ⟨0, some 1, 7⟩ false :=
  c9_idempotent [⟨1, some fun x => JSVal.jobj ⟨x.id, x.version, 7⟩⟩] 2 ⟨0, none, 0⟩ 1 false
    ⟨0, some 1, 7⟩ true rfl 0

/-- C10, confirmed.  A step whose transform invokes its continuation
with undefined keeps the working document (only the version marker is
stamped) but sets the modified flag for the rest of the chain, because
undefined differs from null under strict inequality; a run containing
such a step therefore ends modified and its document is counted into
written by the row handler despite having had no content change. -/
theorem c10_undefined_counts_written (steps : List Step) (s : Step) (f : Doc → JSVal) (doc : Doc) (T fuel : Nat)
    (h1 : docVersion doc < T) (h2 : steps[docVersion doc]? = some s)
    (h3 : s.up = some f) (h4 : f doc = .jundef) :
    (∀ m : Bool, migrateDocument steps (fuel + 1) doc T m =
        migrateDocument steps fuel { doc with version := some s.id } T true) ∧
      (∀ (d : Doc) (m : Bool),
        migrateDocument steps (fuel + 1) doc T false = .ok d m → m = true) ∧
      ∀ (st : List Doc) (p : Progress) (d : Doc),
        migrateDocument steps (fuel + 1) doc T false = .ok d true →
        processRow steps (fuel + 1) T st p doc =
          .ok (dbInsert st d) { p with done := p.done + 1, written := p.written + 1 }
            [{ p with done := p.done + 1 },
             { p with done := p.done + 1, written := p.written + 1 }] := by
  have hstep : ∀ m : Bool, migrateDocument steps (fuel + 1) doc T m =
      migrateDocument steps fuel { doc with version := some s.id } T true := by
    intro m
    rw [migrate_step steps doc T fuel m s f h1 h2 h3]
    simp only [h4, Bool.or_true]
  refine ⟨hstep, ?_, ?_⟩
  · intro d m h
    rw [hstep false] at h
    exact migrate_sticky steps fuel _ T d m h
  · intro st p d h
    rw [processRow, h]
    simp

/-- C10, witness: a concrete undefined-yielding step whose document is
counted into written. -/
theorem c10_undefined_counts_written_witness :
    processRow [⟨1, some fun _ => JSVal.jundef⟩] 2 1 [] ⟨0, 0, 0, false⟩ ⟨0, none, 3⟩ =
      .ok [⟨0, some 1, 3⟩] ⟨1, 0, 1, false⟩ [⟨1, 0, 0, false⟩, ⟨1, 0, 1, false⟩] :=
  (c10_undefined_counts_written [⟨1, some fun _ => JSVal.jundef⟩] ⟨1, some fun _ => JSVal.jundef⟩
      (fun _ => JSVal.jundef) ⟨0, none, 3⟩ 1 1 (by decide) rfl rfl rfl).2.2
    [] ⟨0, 0, 0, false⟩ ⟨0, some 1, 3⟩ rfl
